import Mathlib

/-!
Verification of `scripts/parse_matrix_config.py`.

Strings are modelled as `List Char` (`Str`); Python `str.replace` is
modelled by `replaceAll` (left-to-right, non-overlapping, scanning
resumes after the replaced segment).  YAML/JSON scalars other than
strings are opaque payload (`Val.other`); a job dictionary is modelled
by its non-`dependent_jobs` entries (an association list, insertion
order preserved) together with the optional `dependent_jobs` entry.
-/

abbrev Str := List Char

/-- Recursion worker for `replaceAll`.  The `fuel` argument only bounds
the recursion depth: one unit is consumed per step, and each step
shortens the remaining string by at least one character, so any
`fuel ≥ s.length` gives the same result (`replaceAllFuel_congr`). -/
def replaceAllFuel (pat rep : Str) : Nat → Str → Str
  | _, [] => []
  | 0, c :: rest => c :: rest
  | fuel + 1, c :: rest =>
    if pat ≠ [] ∧ pat.isPrefixOf (c :: rest) then
      rep ++ replaceAllFuel pat rep fuel ((c :: rest).drop pat.length)
    else
      c :: replaceAllFuel pat rep fuel rest

/-- Model of `str.replace(pat, rep)`: replace every non-overlapping occurrence of
`pat` in `s` by `rep`, scanning left to right and resuming after each
replaced segment.  (Python's behaviour for an empty pattern is never
exercised here: every pattern used is non-empty.) -/
def replaceAll (pat rep : Str) (s : Str) : Str :=
  replaceAllFuel pat rep s.length s

/-- The fixed placeholder token. -/
def BRANCH_PLACEHOLDER : Str := "BRANCH_PLACEHOLDER".toList

/-- A parsed YAML/JSON value: mapping, sequence, string, or opaque scalar. -/
inductive ConfigValue where
  | mapping  : List (Str × ConfigValue) → ConfigValue
  | sequence : List ConfigValue → ConfigValue
  | str      : Str → ConfigValue
  | scalar   : Int → ConfigValue

mutual
/-- Function `replace_branch_placeholder` from the script: recursively replace
`BRANCH_PLACEHOLDER` by `branch_name` in every string value. -/
def replace_branch_placeholder : ConfigValue → Str → ConfigValue
  | .mapping kvs, b => .mapping (replaceInMapping kvs b)
  | .sequence xs, b => .sequence (replaceInSeq xs b)
  | .str s, b => .str (replaceAll BRANCH_PLACEHOLDER b s)
  | .scalar n, _ => .scalar n

/-- The dict comprehension `{k: replace(v, b) for k, v in obj.items()}`. -/
def replaceInMapping : List (Str × ConfigValue) → Str → List (Str × ConfigValue)
  | [], _ => []
  | (k, v) :: rest, b => (k, replace_branch_placeholder v b) :: replaceInMapping rest b

/-- The list comprehension `[replace(item, b) for item in obj]`. -/
def replaceInSeq : List ConfigValue → Str → List ConfigValue
  | [], _ => []
  | v :: rest, b => replace_branch_placeholder v b :: replaceInSeq rest b
end

/-- Decidable occurrence test: `pat` occurs as a contiguous substring of
`s`. -/
def occursIn (pat : Str) : Str → Bool
  | [] => pat.isPrefixOf []
  | c :: rest => pat.isPrefixOf (c :: rest) || occursIn pat rest

mutual
/-- No string value anywhere in the configuration value contains the
placeholder token. -/
def cvNoToken : ConfigValue → Bool
  | .mapping kvs => cvNoTokenM kvs
  | .sequence xs => cvNoTokenS xs
  | .str s => !(occursIn BRANCH_PLACEHOLDER s)
  | .scalar _ => true

/-- Predicate `cvNoToken` over the values of a mapping. -/
def cvNoTokenM : List (Str × ConfigValue) → Bool
  | [] => true
  | (_, v) :: rest => cvNoToken v && cvNoTokenM rest

/-- Predicate `cvNoToken` over the items of a sequence. -/
def cvNoTokenS : List ConfigValue → Bool
  | [] => true
  | v :: rest => cvNoToken v && cvNoTokenS rest
end

mutual
/-- The substitution contract of spec §4.1, as a relation between input
and output: the output is structurally identical, every string value has
all occurrences of the token replaced by `b`, mapping keys are kept (in
order), sequence order is preserved, and non-string scalars are
unchanged. -/
def SubstSpecV (b : Str) : ConfigValue → ConfigValue → Prop
  | .str s, w => w = .str (replaceAll BRANCH_PLACEHOLDER b s)
  | .scalar n, w => w = .scalar n
  | .mapping kvs, w => ∃ kvs', w = .mapping kvs' ∧ SubstSpecM b kvs kvs'
  | .sequence xs, w => ∃ xs', w = .sequence xs' ∧ SubstSpecS b xs xs'

/-- Mapping part of `SubstSpecV`: entries correspond one to one, in
order, with identical keys and related values. -/
def SubstSpecM (b : Str) : List (Str × ConfigValue) → List (Str × ConfigValue) → Prop
  | [], l => l = []
  | (k, v) :: rest, l =>
    ∃ w rest', l = (k, w) :: rest' ∧ SubstSpecV b v w ∧ SubstSpecM b rest rest'

/-- Sequence part of `SubstSpecV`: items correspond one to one, in
order, with related values. -/
def SubstSpecS (b : Str) : List ConfigValue → List ConfigValue → Prop
  | [], l => l = []
  | v :: rest, l => ∃ w rest', l = w :: rest' ∧ SubstSpecV b v w ∧ SubstSpecS b rest rest'
end

theorem occursIn_iff (pat s : Str) : occursIn pat s = true ↔ pat <:+: s := by
  induction s with
  | nil =>
    cases pat <;> simp [occursIn, List.isPrefixOf, List.infix_nil]
  | cons c rest ih =>
    simp [occursIn, List.infix_cons_iff, List.isPrefixOf_iff_prefix, ih]

theorem replaceAllFuel_no_occurrence (pat rep : Str) (fuel : Nat) (s : Str)
    (h : ¬ pat <:+: s) : replaceAllFuel pat rep fuel s = s := by
  induction fuel generalizing s with
  | zero => cases s <;> rfl
  | succ n ih =>
    cases s with
    | nil => rfl
    | cons c rest =>
      rw [replaceAllFuel, if_neg, ih rest (fun hr => h (List.infix_cons hr))]
      rintro ⟨-, hpre⟩
      exact h ( List.IsPrefix.isInfix ( List.isPrefixOf_iff_prefix.mp hpre))

theorem replaceAll_no_occurrence (pat rep s : Str) (h : ¬ pat <:+: s) :
    replaceAll pat rep s = s :=
  replaceAllFuel_no_occurrence pat rep s.length s h

mutual
theorem replace_of_noToken :
    ∀ v : ConfigValue, cvNoToken v = true → ∀ b, replace_branch_placeholder v b = v
  | .str s => by
    intro h b
    simp only [cvNoToken, Bool.not_eq_true'] at h
    rw [replace_branch_placeholder,
      replaceAll_no_occurrence _ _ _ (fun hin => by
        rw [(occursIn_iff _ _).mpr hin] at h; cases h)]
  | .scalar n => by intro h b; rfl
  | .mapping kvs => by
    intro h b
    rw [replace_branch_placeholder, replaceM_of_noToken kvs (by simpa [cvNoToken] using h) b]
  | .sequence xs => by
    intro h b
    rw [replace_branch_placeholder, replaceS_of_noToken xs (by simpa [cvNoToken] using h) b]

theorem replaceM_of_noToken :
    ∀ kvs : List (Str × ConfigValue), cvNoTokenM kvs = true → ∀ b,
      replaceInMapping kvs b = kvs
  | [] => by intro h b; rfl
  | (k, v) :: rest => by
    intro h b
    rw [cvNoTokenM, Bool.and_eq_true] at h
    rw [replaceInMapping, replace_of_noToken v h.1 b, replaceM_of_noToken rest h.2 b]

theorem replaceS_of_noToken :
    ∀ xs : List ConfigValue, cvNoTokenS xs = true → ∀ b, replaceInSeq xs b = xs
  | [] => by intro h b; rfl
  | v :: rest => by
    intro h b
    rw [cvNoTokenS, Bool.and_eq_true] at h
    rw [replaceInSeq, replace_of_noToken v h.1 b, replaceS_of_noToken rest h.2 b]
end

mutual
theorem substSpec_holds :
    ∀ (v : ConfigValue) (b : Str), SubstSpecV b v (replace_branch_placeholder v b)
  | .str s, b => by rw [replace_branch_placeholder]; rfl
  | .scalar n, b => by rw [replace_branch_placeholder]; rfl
  | .mapping kvs, b => by
    rw [replace_branch_placeholder, SubstSpecV]
    exact ⟨replaceInMapping kvs b, rfl, substSpecM_holds kvs b⟩
  | .sequence xs, b => by
    rw [replace_branch_placeholder, SubstSpecV]
    exact ⟨replaceInSeq xs b, rfl, substSpecS_holds xs b⟩

theorem substSpecM_holds :
    ∀ (kvs : List (Str × ConfigValue)) (b : Str), SubstSpecM b kvs (replaceInMapping kvs b)
  | [], b => by rw [replaceInMapping]; rfl
  | (k, v) :: rest, b => by
    rw [replaceInMapping, SubstSpecM]
    exact ⟨_, _, rfl, substSpec_holds v b, substSpecM_holds rest b⟩

theorem substSpecS_holds :
    ∀ (xs : List ConfigValue) (b : Str), SubstSpecS b xs (replaceInSeq xs b)
  | [], b => by rw [replaceInSeq]; rfl
  | v :: rest, b => by
    rw [replaceInSeq, SubstSpecS]
    exact ⟨_, _, rfl, substSpec_holds v b, substSpecS_holds rest b⟩
end

/-! ### Job records and the level organizer -/

/-- A job-dictionary value that is not a list of child jobs: a string or
an opaque non-string scalar payload. -/
inductive Val where
  | s     : Str → Val
  | other : Int → Val
deriving DecidableEq

/-- A job record: the dictionary entries other than `dependent_jobs`
(in insertion order), and the optional `dependent_jobs` entry (`none`
when the key is absent, `some cs` when present with child list `cs`). -/
inductive Job where
  | mk : List (Str × Val) → Option (List Job) → Job

/-- The non-`dependent_jobs` entries of a job. -/
def Job.fields : Job → List (Str × Val)
  | .mk fs _ => fs

/-- The `dependent_jobs` entry of a job, when present. -/
def Job.children : Job → Option (List Job)
  | .mk _ cs => cs

def repoKey : Str := "repo".toList
def imageKey : Str := "image".toList
def dependentJobsKey : Str := "dependent_jobs".toList
def baseImageKey : Str := "base_image".toList

/-- Lookup `d.get(k)` on the modelled dictionary entries: the value of
the first entry whose key is `k`, if any. -/
def getVal (fs : List (Str × Val)) (k : Str) : Option Val :=
  (fs.find? (fun kv => kv.1 == k)).map (fun kv => kv.2)

/-- Assignment `d[k] = v` on the modelled dictionary entries: overwrite
the value in place when the key is present, otherwise append the new
entry. -/
def setVal (fs : List (Str × Val)) (k : Str) (v : Val) : List (Str × Val) :=
  if fs.any (fun kv => kv.1 == k) then
    fs.map (fun kv => if kv.1 == k then (k, v) else kv)
  else
    fs ++ [(k, v)]

/-- Lookup `d.get(k)` restricted to string values: `some s` exactly when
the key is present with string value `s`.  (On the well-formed inputs of the
spec, `repo` and `image` are strings whenever present.) -/
def getStr (fs : List (Str × Val)) (k : Str) : Option Str :=
  match getVal fs k with
  | some (Val.s v) => some v
  | _ => none

/-- Test `matches = repo_filter is None or job.get("repo") == repo_filter`. -/
def matchesFilter (repo_filter : Option Str) (j : Job) : Bool :=
  match repo_filter with
  | none => true
  | some f => getVal j.fields repoKey == some (Val.s f)

/-- The job copy built when a job is placed into its level (source lines
87–95): the dict comprehension dropping `dependent_jobs`, then, when
`parent_image` is a truthy (non-empty) string, the derived `base_image`
entry — the parent image with `/` replaced by `_`, suffixed with
`--<tag>` when a truthy (non-empty) `base_image_tag` was supplied. -/
def makeJobCopy (base_image_tag : Option Str) (fields : List (Str × Val))
    (parent_image : Option Str) : List (Str × Val) :=
  let job_copy := fields.filter (fun kv => !(kv.1 == dependentJobsKey))
  match parent_image with
  | none => job_copy
  | some pimg =>
    if pimg = [] then job_copy
    else
      let normalized := replaceAll ['/'] ['_'] pimg
      match base_image_tag with
      | some t =>
        if t = [] then setVal job_copy baseImageKey (Val.s normalized)
        else setVal job_copy baseImageKey (Val.s (normalized ++ '-' :: '-' :: t))
      | none => setVal job_copy baseImageKey (Val.s normalized)

/-- The `levels` accumulator, as the journal of `levels[level].append(c)`
operations in the order they are executed. -/
abbrev Journal := List (Nat × List (Str × Val))

mutual
/-- Function `find_and_process_matching_jobs` from the script.  Returns the Python
return value together with the updated `levels` journal.  Children are
processed (and hence appended) before the job itself, exactly as in the
source; with no `dependent_jobs` key, `has_matching_descendant` stays
`False`. -/
def find_and_process_matching_jobs (repo_filter base_image_tag : Option Str)
    (job : Job) (level : Nat) (parent_image : Option Str) (incl : Bool)
    (levels : Journal) : Bool × Journal :=
  match job with
  | .mk fields none =>
    let matched := matchesFilter repo_filter (.mk fields none)
    if matched || incl then
      (true, levels ++ [(level, makeJobCopy base_image_tag fields parent_image)])
    else
      (false, levels)
  | .mk fields (some cs) =>
    let matched := matchesFilter repo_filter (.mk fields (some cs))
    let r := processDependents repo_filter base_image_tag cs (level + 1)
      (getStr fields imageKey) (incl || matched) levels
    if matched || incl then
      (true, r.2 ++ [(level, makeJobCopy base_image_tag fields parent_image)])
    else
      (r.1, r.2)

/-- The `for dependent_job in job["dependent_jobs"]` loop: the returned
boolean is `has_matching_descendant`. -/
def processDependents (repo_filter base_image_tag : Option Str)
    (jobs : List Job) (level : Nat) (parent_image : Option Str) (incl : Bool)
    (levels : Journal) : Bool × Journal :=
  match jobs with
  | [] => (false, levels)
  | j :: rest =>
    let r₁ := find_and_process_matching_jobs repo_filter base_image_tag j level
      parent_image incl levels
    let r₂ := processDependents repo_filter base_image_tag rest level parent_image incl r₁.2
    (r₁.1 || r₂.1, r₂.2)
end

/-- The `for job in config_items: find_and_process_matching_jobs(job, 0)`
loop of `organize_by_levels`. -/
def processTopLevel (repo_filter base_image_tag : Option Str)
    (config_items : List Job) (levels : Journal) : Journal :=
  match config_items with
  | [] => levels
  | j :: rest =>
    processTopLevel repo_filter base_image_tag rest
      (find_and_process_matching_jobs repo_filter base_image_tag j 0 none false levels).2

/-- Value `max(levels.keys()) if levels else 0`: every key of the defaultdict
was created by an append, so the keys are exactly the journal's depths. -/
def maxLevel (levels : Journal) : Nat :=
  levels.foldr (fun e m => max e.1 m) 0

/-- Entry `levels[i]` of the defaultdict, reconstructed from the journal: the
copies appended at depth `i`, in append order. -/
def journalLevel (levels : Journal) (i : Nat) : List (List (Str × Val)) :=
  (levels.filter (fun e => e.1 == i)).map (fun e => e.2)

/-- Function `organize_by_levels` from the script. -/
def organize_by_levels (config_items : List Job) (base_image_tag : Option Str)
    (repo_filter : Option Str) : List (List (List (Str × Val))) :=
  let levels := processTopLevel repo_filter base_image_tag config_items []
  (List.range (maxLevel levels + 1)).map (journalLevel levels)

/-! ### Spec-side view of the tree traversal -/

mutual
/-- Boolean equality test on jobs (needed because `Job` is a nested
inductive, for which equality cannot be derived automatically). -/
def jobBeq : Job → Job → Bool
  | .mk f₁ none, .mk f₂ none => f₁ == f₂
  | .mk f₁ (some c₁), .mk f₂ (some c₂) => f₁ == f₂ && jobsBeq c₁ c₂
  | _, _ => false

/-- Boolean equality test on lists of jobs. -/
def jobsBeq : List Job → List Job → Bool
  | [], [] => true
  | a :: as, b :: bs => jobBeq a b && jobsBeq as bs
  | _, _ => false
end

mutual
theorem jobBeq_iff : ∀ a b : Job, jobBeq a b = true ↔ a = b
  | .mk f₁ none, .mk f₂ none => by simp [jobBeq]
  | .mk f₁ (some c₁), .mk f₂ (some c₂) => by simp [jobBeq, jobsBeq_iff c₁ c₂]
  | .mk f₁ none, .mk f₂ (some c₂) => by simp [jobBeq]
  | .mk f₁ (some c₁), .mk f₂ none => by simp [jobBeq]

theorem jobsBeq_iff : ∀ a b : List Job, jobsBeq a b = true ↔ a = b
  | [], [] => by simp [jobsBeq]
  | a :: as, b :: bs => by simp [jobsBeq, jobBeq_iff a b, jobsBeq_iff as bs]
  | [], _ :: _ => by simp [jobsBeq]
  | _ :: _, [] => by simp [jobsBeq]
end

instance : DecidableEq Job := fun a b => decidable_of_iff _ (jobBeq_iff a b)

/-- Everything the spec says about one tree position: the chain of
ancestors (nearest first), the nesting depth, the parent's `image`
string (absent for top-level jobs), and the job at the position. -/
structure NodeView where
  ancestors   : List Job
  depth       : Nat
  parentImage : Option Str
  node        : Job
deriving DecidableEq

mutual
/-- Pre-order (depth-first, left-to-right) list of the positions of a
job's subtree. -/
def dfsJob (ancs : List Job) (d : Nat) (pimg : Option Str) (j : Job) : List NodeView :=
  match j with
  | .mk fields none => [⟨ancs, d, pimg, .mk fields none⟩]
  | .mk fields (some cs) =>
    ⟨ancs, d, pimg, .mk fields (some cs)⟩ ::
      dfsJobs (Job.mk fields (some cs) :: ancs) (d + 1) (getStr fields imageKey) cs

/-- Pre-order positions of a forest of sibling subtrees. -/
def dfsJobs (ancs : List Job) (d : Nat) (pimg : Option Str) (js : List Job) : List NodeView :=
  match js with
  | [] => []
  | j :: rest => dfsJob ancs d pimg j ++ dfsJobs ancs d pimg rest
end

/-- Pre-order positions of the whole input forest. -/
def dfsForest (items : List Job) : List NodeView :=
  dfsJobs [] 0 none items

/-- The spec's inclusion rule: the job's own `repo` equals the filter, or
some ancestor's does.  (With no filter every job is included.) -/
def selfOrAncestorMatches (repo_filter : Option Str) (v : NodeView) : Bool :=
  matchesFilter repo_filter v.node || v.ancestors.any (matchesFilter repo_filter)

/-- What a position contributes to the output, per the spec: its depth
and copy when it is included, nothing otherwise. -/
def emitView (repo_filter base_image_tag : Option Str) (v : NodeView) :
    Option (Nat × List (Str × Val)) :=
  if selfOrAncestorMatches repo_filter v then
    some (v.depth, makeJobCopy base_image_tag v.node.fields v.parentImage)
  else
    none

/-- The spec's emitted entries, in depth-first, left-to-right order. -/
def includedEntries (repo_filter base_image_tag : Option Str) (items : List Job) : Journal :=
  (dfsForest items).filterMap (emitView repo_filter base_image_tag)

/-- Maximum nesting depth of any job of the forest (0 for an empty forest). -/
def forestMaxDepth (items : List Job) : Nat :=
  (dfsForest items).foldr (fun v m => max v.depth m) 0

/-- Maximum depth that received an included job (0 if none did). -/
def includedMaxDepth (repo_filter base_image_tag : Option Str) (items : List Job) : Nat :=
  maxLevel (includedEntries repo_filter base_image_tag items)

/-- Some job of the forest matches the filter (with no filter: the forest
is non-empty). -/
def forestAnyMatch (repo_filter : Option Str) (items : List Job) : Bool :=
  (dfsForest items).any (fun v => matchesFilter repo_filter v.node)

/-- Well-formedness from the spec's data model: `base_image` is an
output-only field, never present on an input job. -/
def NoBaseImageKey (items : List Job) : Bool :=
  (dfsForest items).all (fun v => v.node.fields.all (fun kv => !(kv.1 == baseImageKey)))

/-- The tag suffix of a derived `base_image`: `--<tag>` exactly when a
non-empty tag was supplied. -/
def tagSuffix (base_image_tag : Option Str) : Str :=
  match base_image_tag with
  | some t => if t = [] then [] else '-' :: '-' :: t
  | none => []

/-! ### The journal is accumulator-style: processing appends to `levels` -/

mutual
theorem find_acc (F tag : Option Str) :
    ∀ (j : Job) (d : Nat) (pimg : Option Str) (incl : Bool) (levels : Journal),
      find_and_process_matching_jobs F tag j d pimg incl levels =
        ((find_and_process_matching_jobs F tag j d pimg incl []).1,
          levels ++ (find_and_process_matching_jobs F tag j d pimg incl []).2)
  | .mk fields none, d, pimg, incl, levels => by
    simp only [find_and_process_matching_jobs]
    by_cases h : (matchesFilter F (Job.mk fields none) || incl) = true
    · simp [h]
    · simp [h]
  | .mk fields (some cs), d, pimg, incl, levels => by
    simp only [find_and_process_matching_jobs]
    rw [deps_acc F tag cs (d + 1) (getStr fields imageKey)
      (incl || matchesFilter F (Job.mk fields (some cs))) levels]
    by_cases h : (matchesFilter F (Job.mk fields (some cs)) || incl) = true
    · simp [h]
    · simp [h]

theorem deps_acc (F tag : Option Str) :
    ∀ (js : List Job) (d : Nat) (pimg : Option Str) (incl : Bool) (levels : Journal),
      processDependents F tag js d pimg incl levels =
        ((processDependents F tag js d pimg incl []).1,
          levels ++ (processDependents F tag js d pimg incl []).2)
  | [], d, pimg, incl, levels => by simp [processDependents]
  | j :: rest, d, pimg, incl, levels => by
    simp only [processDependents]
    simp only [find_acc F tag j d pimg incl levels]
    rw [deps_acc F tag rest d pimg incl
        (levels ++ (find_and_process_matching_jobs F tag j d pimg incl []).2),
      deps_acc F tag rest d pimg incl
        (find_and_process_matching_jobs F tag j d pimg incl []).2]
    simp [List.append_assoc]
end

/-- The top-level loop of `organize_by_levels` behaves exactly like the
dependents loop run at depth 0 with no parent image and no inherited
inclusion. -/
theorem processTopLevel_eq (F tag : Option Str) (items : List Job) (levels : Journal) :
    processTopLevel F tag items levels =
      (processDependents F tag items 0 none false levels).2 := by
  induction items generalizing levels with
  | nil => simp [processTopLevel, processDependents]
  | cons j rest ih =>
    simp only [processTopLevel, processDependents]
    exact ih _

/-! ### Depth bounds -/

mutual
theorem find_depth_ge (F tag : Option Str) :
    ∀ (j : Job) (d : Nat) (pimg : Option Str) (incl : Bool),
      ∀ e ∈ (find_and_process_matching_jobs F tag j d pimg incl []).2, d ≤ e.1
  | .mk fields none, d, pimg, incl => by
    intro e he
    simp only [find_and_process_matching_jobs] at he
    by_cases h : (matchesFilter F (Job.mk fields none) || incl) = true
    · simp [h] at he
      simp [he]
    · simp [h] at he
  | .mk fields (some cs), d, pimg, incl => by
    intro e he
    simp only [find_and_process_matching_jobs] at he
    have hd := deps_depth_ge F tag cs (d + 1) (getStr fields imageKey)
      (incl || matchesFilter F (Job.mk fields (some cs)))
    by_cases h : (matchesFilter F (Job.mk fields (some cs)) || incl) = true
    · simp [h] at he
      rcases he with he | he
      · exact Nat.le_of_succ_le (hd e he)
      · simp [he]
    · simp [h] at he
      exact Nat.le_of_succ_le (hd e he)

theorem deps_depth_ge (F tag : Option Str) :
    ∀ (js : List Job) (d : Nat) (pimg : Option Str) (incl : Bool),
      ∀ e ∈ (processDependents F tag js d pimg incl []).2, d ≤ e.1
  | [], d, pimg, incl => by simp [processDependents]
  | j :: rest, d, pimg, incl => by
    intro e he
    simp only [processDependents] at he
    rw [deps_acc F tag rest d pimg incl
      (find_and_process_matching_jobs F tag j d pimg incl []).2] at he
    simp only [List.mem_append] at he
    rcases he with he | he
    · exact find_depth_ge F tag j d pimg incl e he
    · exact deps_depth_ge F tag rest d pimg incl e he
end


/-! ### Bridge: per depth, the code's journal equals the spec's entries -/

mutual
theorem find_bridge (F tag : Option Str) :
    ∀ (j : Job) (ancs : List Job) (d : Nat) (pimg : Option Str) (d' : Nat),
      ((find_and_process_matching_jobs F tag j d pimg
            (ancs.any (matchesFilter F)) []).2).filter (fun e => e.1 == d') =
        ((dfsJob ancs d pimg j).filterMap (emitView F tag)).filter (fun e => e.1 == d')
  | .mk fields none, ancs, d, pimg, d' => by
    simp only [find_and_process_matching_jobs, dfsJob, List.filterMap_cons,
      List.filterMap_nil, emitView, selfOrAncestorMatches, Job.fields]
    by_cases hc : (matchesFilter F (Job.mk fields none) || ancs.any (matchesFilter F)) = true
    · simp [hc]
    · simp [hc]
  | .mk fields (some cs), ancs, d, pimg, d' => by
    have hincl : (ancs.any (matchesFilter F) || matchesFilter F (Job.mk fields (some cs)))
        = ((Job.mk fields (some cs)) :: ancs).any (matchesFilter F) := by
      simp [Bool.or_comm]
    have hdeps := deps_bridge F tag cs (Job.mk fields (some cs) :: ancs) (d + 1)
      (getStr fields imageKey) d'
    have hL : (find_and_process_matching_jobs F tag (Job.mk fields (some cs)) d pimg
          (ancs.any (matchesFilter F)) []).2 =
        (processDependents F tag cs (d + 1) (getStr fields imageKey)
          (((Job.mk fields (some cs)) :: ancs).any (matchesFilter F)) []).2 ++
        (if (matchesFilter F (Job.mk fields (some cs)) || ancs.any (matchesFilter F)) = true
          then [(d, makeJobCopy tag fields pimg)] else []) := by
      simp only [find_and_process_matching_jobs, hincl]
      by_cases hc : (matchesFilter F (Job.mk fields (some cs))
        || ancs.any (matchesFilter F)) = true
      · simp [hc]
      · simp [hc]
    have hR : (dfsJob ancs d pimg (Job.mk fields (some cs))).filterMap (emitView F tag) =
        (if (matchesFilter F (Job.mk fields (some cs)) || ancs.any (matchesFilter F)) = true
          then [(d, makeJobCopy tag fields pimg)] else []) ++
        (dfsJobs (Job.mk fields (some cs) :: ancs) (d + 1)
          (getStr fields imageKey) cs).filterMap (emitView F tag) := by
      simp only [dfsJob, List.filterMap_cons, emitView, selfOrAncestorMatches, Job.fields]
      by_cases hc : (matchesFilter F (Job.mk fields (some cs))
        || ancs.any (matchesFilter F)) = true
      · simp [hc]
      · simp [hc]
    rw [hL, hR, List.filter_append, List.filter_append, hdeps]
    by_cases hd : d = d'
    · subst hd
      have hnil : List.filter (fun e => e.1 == d)
          ((dfsJobs (Job.mk fields (some cs) :: ancs) (d + 1)
            (getStr fields imageKey) cs).filterMap (emitView F tag)) = [] := by
        rw [← hdeps]
        refine List.filter_eq_nil_iff.mpr (fun e he => ?_)
        have := deps_depth_ge F tag cs (d + 1) (getStr fields imageKey)
          (((Job.mk fields (some cs)) :: ancs).any (matchesFilter F)) e he
        simp only [beq_iff_eq]
        omega
      rw [hnil]
      simp
    · have hite : List.filter (fun e => e.1 == d')
          (if (matchesFilter F (Job.mk fields (some cs))
              || ancs.any (matchesFilter F)) = true
            then [(d, makeJobCopy tag fields pimg)] else []) = [] := by
        split <;> simp [hd]
      rw [hite]
      simp

theorem deps_bridge (F tag : Option Str) :
    ∀ (js : List Job) (ancs : List Job) (d : Nat) (pimg : Option Str) (d' : Nat),
      ((processDependents F tag js d pimg (ancs.any (matchesFilter F)) []).2).filter
          (fun e => e.1 == d') =
        ((dfsJobs ancs d pimg js).filterMap (emitView F tag)).filter (fun e => e.1 == d')
  | [], ancs, d, pimg, d' => by simp [processDependents, dfsJobs]
  | j :: rest, ancs, d, pimg, d' => by
    have h₁ := find_bridge F tag j ancs d pimg d'
    have h₂ := deps_bridge F tag rest ancs d pimg d'
    simp only [processDependents, dfsJobs]
    rw [deps_acc F tag rest d pimg (ancs.any (matchesFilter F))
      (find_and_process_matching_jobs F tag j d pimg (ancs.any (matchesFilter F)) []).2]
    simp only [List.filterMap_append, List.filter_append]
    rw [h₁, h₂]
end

/-- Per depth, the full run of the organizer's traversal produces exactly
the spec's included entries. -/
theorem forest_bridge (F tag : Option Str) (items : List Job) (d' : Nat) :
    (processTopLevel F tag items []).filter (fun e => e.1 == d') =
      (includedEntries F tag items).filter (fun e => e.1 == d') := by
  rw [processTopLevel_eq]
  have h := deps_bridge F tag items [] 0 none d'
  simpa [includedEntries, dfsForest] using h

/-! ### From the journal to the returned list of levels -/

theorem maxLevel_bound : ∀ (l : Journal), ∀ e ∈ l, e.1 ≤ maxLevel l := by
  intro l
  induction l with
  | nil => simp
  | cons x t ih =>
    intro e he
    rcases List.mem_cons.mp he with he | he
    · subst he; simp [maxLevel, List.foldr_cons]
    · have := ih e he
      simp only [maxLevel, List.foldr_cons]
      have h2 : e.1 ≤ List.foldr (fun e m => max e.1 m) 0 t := this
      omega

theorem maxLevel_le_of_subset (A B : Journal) (h : ∀ e ∈ A, e ∈ B) :
    maxLevel A ≤ maxLevel B := by
  induction A with
  | nil => simp [maxLevel]
  | cons x t ih =>
    have hx := maxLevel_bound B x (h x (List.mem_cons_self x t))
    have ht := ih (fun e he => h e (List.mem_cons_of_mem x he))
    simp only [maxLevel, List.foldr_cons] at *
    omega

theorem mem_of_filter_depth_congr (A B : Journal)
    (h : ∀ d, A.filter (fun e => e.1 == d) = B.filter (fun e => e.1 == d)) :
    ∀ e ∈ A, e ∈ B := by
  intro e he
  have h1 : e ∈ A.filter (fun x => x.1 == e.1) := List.mem_filter.mpr ⟨he, by simp⟩
  rw [h e.1] at h1
  exact (List.mem_filter.mp h1).1

theorem maxLevel_congr (A B : Journal)
    (h : ∀ d, A.filter (fun e => e.1 == d) = B.filter (fun e => e.1 == d)) :
    maxLevel A = maxLevel B :=
  Nat.le_antisymm
    (maxLevel_le_of_subset A B (mem_of_filter_depth_congr A B h))
    (maxLevel_le_of_subset B A (mem_of_filter_depth_congr B A (fun d => (h d).symm)))

theorem journalLevel_eq_nil_of_gt (l : Journal) (d : Nat) (h : maxLevel l < d) :
    journalLevel l d = [] := by
  have : l.filter (fun e => e.1 == d) = [] := by
    refine List.filter_eq_nil_iff.mpr (fun e he => ?_)
    have := maxLevel_bound l e he
    simp only [beq_iff_eq]
    omega
  simp [journalLevel, this]

/-- The journal depth maxima of code and spec agree. -/
theorem maxLevel_code_spec (F tag : Option Str) (items : List Job) :
    maxLevel (processTopLevel F tag items []) = includedMaxDepth F tag items :=
  maxLevel_congr _ _ (forest_bridge F tag items)

/-- Lemma: `organize_by_levels` produces one list per depth `0 .. maxLevel`. -/
theorem organize_by_levels_length (items : List Job) (tag F : Option Str) :
    (organize_by_levels items tag F).length = includedMaxDepth F tag items + 1 := by
  simp [organize_by_levels, maxLevel_code_spec]

/-- Master lemma: level `d` of the output is exactly the spec's included
entries of depth `d`, in traversal order (an out-of-range `d` yields the
empty list, matching the fact that no entry has that depth). -/
theorem organize_by_levels_getD (items : List Job) (tag F : Option Str) (d : Nat) :
    (organize_by_levels items tag F).getD d [] =
      journalLevel (includedEntries F tag items) d := by
  have hbr : ∀ d', journalLevel (processTopLevel F tag items []) d' =
      journalLevel (includedEntries F tag items) d' := by
    intro d'
    simp only [journalLevel, forest_bridge F tag items d']
  simp only [organize_by_levels]
  rcases Nat.lt_or_ge d (maxLevel (processTopLevel F tag items []) + 1) with hlt | hge
  · rw [List.getD_eq_getElem?_getD, List.getElem?_map, List.getElem?_range hlt]
    simp [hbr d]
  · rw [List.getD_eq_getElem?_getD, List.getElem?_eq_none (by simpa using hge)]
    rw [← hbr d, journalLevel_eq_nil_of_gt _ _ (by omega)]
    rfl

/-- Membership in an output level, characterised by the spec's view. -/
theorem mem_level_iff (items : List Job) (tag F : Option Str) (d : Nat)
    (c : List (Str × Val)) :
    c ∈ (organize_by_levels items tag F).getD d [] ↔
      ∃ v ∈ dfsForest items, selfOrAncestorMatches F v = true ∧ v.depth = d ∧
        c = makeJobCopy tag v.node.fields v.parentImage := by
  rw [organize_by_levels_getD]
  simp only [journalLevel, includedEntries, List.mem_map, List.mem_filter,
    List.mem_filterMap, emitView]
  constructor
  · rintro ⟨e, ⟨⟨v, hv, hemit⟩, hdep⟩, hc⟩
    by_cases hm : selfOrAncestorMatches F v = true
    · rw [if_pos hm] at hemit
      have he : e = (v.depth, makeJobCopy tag v.node.fields v.parentImage) :=
        (Option.some.inj hemit).symm
      refine ⟨v, hv, hm, ?_, ?_⟩
      · have : e.1 = d := by simpa using hdep
        rw [← this, he]
      · rw [← hc, he]
    · rw [if_neg hm] at hemit
      cases hemit
  · rintro ⟨v, hv, hm, hdep, hc⟩
    exact ⟨(v.depth, makeJobCopy tag v.node.fields v.parentImage),
      ⟨⟨v, hv, by rw [if_pos hm]⟩, by simpa using hdep⟩, hc.symm⟩

/-! ### Structural facts about the spec's traversal -/

mutual
theorem dfsJob_depth_ge :
    ∀ (j : Job) (ancs : List Job) (d : Nat) (pimg : Option Str),
      ∀ v ∈ dfsJob ancs d pimg j, d ≤ v.depth
  | .mk fields none, ancs, d, pimg => by
    intro v hv
    simp only [dfsJob, List.mem_singleton] at hv
    subst hv
    simp
  | .mk fields (some cs), ancs, d, pimg => by
    intro v hv
    simp only [dfsJob, List.mem_cons] at hv
    rcases hv with hv | hv
    · subst hv; simp
    · have := dfsJobs_depth_ge cs (Job.mk fields (some cs) :: ancs) (d + 1)
        (getStr fields imageKey) v hv
      omega

theorem dfsJobs_depth_ge :
    ∀ (js : List Job) (ancs : List Job) (d : Nat) (pimg : Option Str),
      ∀ v ∈ dfsJobs ancs d pimg js, d ≤ v.depth
  | [], ancs, d, pimg => by simp [dfsJobs]
  | j :: rest, ancs, d, pimg => by
    intro v hv
    rcases List.mem_append.mp (by simpa [dfsJobs] using hv) with hv | hv
    · exact dfsJob_depth_ge j ancs d pimg v hv
    · exact dfsJobs_depth_ge rest ancs d pimg v hv
end

mutual
theorem dfsJob_at_depth :
    ∀ (j : Job) (ancs : List Job) (d : Nat) (pimg : Option Str),
      ∀ v ∈ dfsJob ancs d pimg j, v.depth = d →
        v.ancestors = ancs ∧ v.parentImage = pimg
  | .mk fields none, ancs, d, pimg => by
    intro v hv hd
    simp only [dfsJob, List.mem_singleton] at hv
    subst hv
    exact ⟨rfl, rfl⟩
  | .mk fields (some cs), ancs, d, pimg => by
    intro v hv hd
    simp only [dfsJob, List.mem_cons] at hv
    rcases hv with hv | hv
    · subst hv; exact ⟨rfl, rfl⟩
    · have := dfsJobs_depth_ge cs (Job.mk fields (some cs) :: ancs) (d + 1)
        (getStr fields imageKey) v hv
      omega

theorem dfsJobs_at_depth :
    ∀ (js : List Job) (ancs : List Job) (d : Nat) (pimg : Option Str),
      ∀ v ∈ dfsJobs ancs d pimg js, v.depth = d →
        v.ancestors = ancs ∧ v.parentImage = pimg
  | [], ancs, d, pimg => by simp [dfsJobs]
  | j :: rest, ancs, d, pimg => by
    intro v hv hd
    rcases List.mem_append.mp (by simpa [dfsJobs] using hv) with hv | hv
    · exact dfsJob_at_depth j ancs d pimg v hv hd
    · exact dfsJobs_at_depth rest ancs d pimg v hv hd
end

mutual
theorem dfsJob_parent :
    ∀ (j : Job) (ancs : List Job) (d : Nat) (pimg : Option Str),
      ∀ v ∈ dfsJob ancs d pimg j,
        (v.ancestors = ancs ∧ v.depth = d ∧ v.parentImage = pimg) ∨
        (∃ w ∈ dfsJob ancs d pimg j, v.ancestors = w.node :: w.ancestors ∧
          v.depth = w.depth + 1 ∧ v.parentImage = getStr w.node.fields imageKey)
  | .mk fields none, ancs, d, pimg => by
    intro v hv
    simp only [dfsJob, List.mem_singleton] at hv
    subst hv
    exact Or.inl ⟨rfl, rfl, rfl⟩
  | .mk fields (some cs), ancs, d, pimg => by
    intro v hv
    simp only [dfsJob, List.mem_cons] at hv
    rcases hv with hv | hv
    · subst hv; exact Or.inl ⟨rfl, rfl, rfl⟩
    · rcases dfsJobs_parent cs (Job.mk fields (some cs) :: ancs) (d + 1)
        (getStr fields imageKey) v hv with ⟨ha, hd, hp⟩ | ⟨w, hw, hprops⟩
      · refine Or.inr ⟨⟨ancs, d, pimg, Job.mk fields (some cs)⟩, ?_, ?_, ?_, ?_⟩
        · simp [dfsJob]
        · simpa [NodeView.ancestors] using ha
        · simpa using hd
        · simpa [Job.fields] using hp
      · exact Or.inr ⟨w, by simp [dfsJob]; exact Or.inr hw, hprops⟩

theorem dfsJobs_parent :
    ∀ (js : List Job) (ancs : List Job) (d : Nat) (pimg : Option Str),
      ∀ v ∈ dfsJobs ancs d pimg js,
        (v.ancestors = ancs ∧ v.depth = d ∧ v.parentImage = pimg) ∨
        (∃ w ∈ dfsJobs ancs d pimg js, v.ancestors = w.node :: w.ancestors ∧
          v.depth = w.depth + 1 ∧ v.parentImage = getStr w.node.fields imageKey)
  | [], ancs, d, pimg => by simp [dfsJobs]
  | j :: rest, ancs, d, pimg => by
    intro v hv
    rcases List.mem_append.mp (by simpa [dfsJobs] using hv) with hv | hv
    · rcases dfsJob_parent j ancs d pimg v hv with h | ⟨w, hw, hprops⟩
      · exact Or.inl h
      · exact Or.inr ⟨w, by simp [dfsJobs]; exact Or.inl hw, hprops⟩
    · rcases dfsJobs_parent rest ancs d pimg v hv with h | ⟨w, hw, hprops⟩
      · exact Or.inl h
      · exact Or.inr ⟨w, by simp [dfsJobs]; exact Or.inr hw, hprops⟩
end

mutual
theorem dfsJob_anc :
    ∀ (j : Job) (ancs : List Job) (d : Nat) (pimg : Option Str),
      ∀ v ∈ dfsJob ancs d pimg j,
        ∃ pre, v.ancestors = pre ++ ancs ∧
          ∀ a ∈ pre, ∃ w ∈ dfsJob ancs d pimg j, w.node = a
  | .mk fields none, ancs, d, pimg => by
    intro v hv
    simp only [dfsJob, List.mem_singleton] at hv
    subst hv
    exact ⟨[], rfl, by simp⟩
  | .mk fields (some cs), ancs, d, pimg => by
    intro v hv
    simp only [dfsJob, List.mem_cons] at hv
    rcases hv with hv | hv
    · subst hv; exact ⟨[], rfl, by simp⟩
    · rcases dfsJob_anc_list cs (Job.mk fields (some cs) :: ancs) (d + 1)
        (getStr fields imageKey) v hv with ⟨pre, hpre, hmem⟩
      refine ⟨pre ++ [Job.mk fields (some cs)], by simpa using hpre, ?_⟩
      intro a ha
      rcases List.mem_append.mp ha with ha | ha
      · rcases hmem a ha with ⟨w, hw, hwa⟩
        exact ⟨w, by simp [dfsJob]; exact Or.inr hw, hwa⟩
      · refine ⟨⟨ancs, d, pimg, Job.mk fields (some cs)⟩, by simp [dfsJob], ?_⟩
        simp only [List.mem_singleton] at ha
        simp [NodeView.node, ha]

theorem dfsJob_anc_list :
    ∀ (js : List Job) (ancs : List Job) (d : Nat) (pimg : Option Str),
      ∀ v ∈ dfsJobs ancs d pimg js,
        ∃ pre, v.ancestors = pre ++ ancs ∧
          ∀ a ∈ pre, ∃ w ∈ dfsJobs ancs d pimg js, w.node = a
  | [], ancs, d, pimg => by simp [dfsJobs]
  | j :: rest, ancs, d, pimg => by
    intro v hv
    rcases List.mem_append.mp (by simpa [dfsJobs] using hv) with hv | hv
    · rcases dfsJob_anc j ancs d pimg v hv with ⟨pre, hpre, hmem⟩
      refine ⟨pre, hpre, fun a ha => ?_⟩
      rcases hmem a ha with ⟨w, hw, hwa⟩
      exact ⟨w, by simp [dfsJobs]; exact Or.inl hw, hwa⟩
    · rcases dfsJob_anc_list rest ancs d pimg v hv with ⟨pre, hpre, hmem⟩
      refine ⟨pre, hpre, fun a ha => ?_⟩
      rcases hmem a ha with ⟨w, hw, hwa⟩
      exact ⟨w, by simp [dfsJobs]; exact Or.inr hw, hwa⟩
end

/-! ### Dictionary lemmas -/

theorem find?_overwrite (fs : List (Str × Val)) (k k' : Str) (v : Val) (h : ¬ k' = k) :
    List.find? (fun kv => kv.1 == k')
        (fs.map (fun kv => if kv.1 == k then (k, v) else kv)) =
      List.find? (fun kv => kv.1 == k') fs := by
  induction fs with
  | nil => rfl
  | cons kv t ih =>
    obtain ⟨k1, v1⟩ := kv
    rw [List.map_cons]
    by_cases hk : (k1 == k) = true
    · have hk' : k1 = k := by simpa using hk
      subst hk'
      have h1 : (k1 == k') = false := by simp; exact fun he => h he.symm
      rw [if_pos hk, List.find?_cons, List.find?_cons]
      dsimp only
      rw [h1]
      exact ih
    · rw [if_neg hk, List.find?_cons, List.find?_cons]
      dsimp only
      cases hc : (k1 == k')
      · exact ih
      · rfl

theorem find?_overwrite_self (fs : List (Str × Val)) (k : Str) (v : Val)
    (h : fs.any (fun kv => kv.1 == k) = true) :
    List.find? (fun kv => kv.1 == k)
        (fs.map (fun kv => if kv.1 == k then (k, v) else kv)) = some (k, v) := by
  induction fs with
  | nil => cases h
  | cons kv t ih =>
    obtain ⟨k1, v1⟩ := kv
    rw [List.map_cons]
    by_cases hk : (k1 == k) = true
    · rw [if_pos hk, List.find?_cons]
      dsimp only
      rw [show (k == k) = true by simp]
    · have ht : t.any (fun kv => kv.1 == k) = true := by
        rcases List.any_eq_true.mp h with ⟨x, hx, hpx⟩
        rcases List.mem_cons.mp hx with hx | hx
        · subst hx; exact absurd hpx hk
        · exact List.any_eq_true.mpr ⟨x, hx, hpx⟩
      have hk' : (k1 == k) = false := by simpa using hk
      rw [if_neg hk, List.find?_cons]
      dsimp only
      rw [hk']
      exact ih ht

theorem getVal_setVal_ne (fs : List (Str × Val)) (k k' : Str) (v : Val) (h : ¬ k' = k) :
    getVal (setVal fs k v) k' = getVal fs k' := by
  have h1 : (k == k') = false := by simp; exact fun he => h he.symm
  unfold setVal getVal
  split
  · rw [find?_overwrite fs k k' v h]
  · rw [List.find?_append]
    simp [h1]

theorem getVal_setVal_self (fs : List (Str × Val)) (k : Str) (v : Val) :
    getVal (setVal fs k v) k = some v := by
  unfold setVal getVal
  split
  · next h => rw [find?_overwrite_self fs k v h]; rfl
  · next h =>
    rw [List.find?_append, List.find?_eq_none.mpr]
    · simp [List.find?_cons]
    · intro kv hkv
      have := List.any_eq_false.mp (Bool.not_eq_true _ ▸ h) kv hkv
      simpa using this

theorem getVal_filter_ne (fs : List (Str × Val)) (k dk : Str) (h : ¬ k = dk) :
    getVal (fs.filter (fun kv => !(kv.1 == dk))) k = getVal fs k := by
  induction fs with
  | nil => rfl
  | cons kv t ih =>
    obtain ⟨k1, v1⟩ := kv
    by_cases hdk : (k1 == dk) = true
    · have hdk' : k1 = dk := by simpa using hdk
      subst hdk'
      have hne : (k1 == k) = false := by simp; exact fun he => h he.symm
      rw [List.filter_cons_of_neg (by simp)]
      rw [ih]
      unfold getVal
      rw [List.find?_cons]
      dsimp only
      rw [hne]
    · have hdk' : (k1 == dk) = false := by simpa using hdk
      rw [List.filter_cons_of_pos (by simpa using hdk)]
      unfold getVal
      rw [List.find?_cons, List.find?_cons]
      dsimp only
      cases hc : (k1 == k)
      · exact ih
      · rfl

theorem getVal_filter_self (fs : List (Str × Val)) (dk : Str) :
    getVal (fs.filter (fun kv => !(kv.1 == dk))) dk = none := by
  unfold getVal
  rw [List.find?_eq_none.mpr]
  · rfl
  · intro kv hkv
    have := (List.mem_filter.mp hkv).2
    simpa using this

theorem getVal_all_none (fs : List (Str × Val)) (k : Str)
    (h : fs.all (fun kv => !(kv.1 == k)) = true) : getVal fs k = none := by
  unfold getVal
  rw [List.find?_eq_none.mpr]
  · rfl
  · intro kv hkv
    have := List.all_eq_true.mp h kv hkv
    simpa using this

/-! ### Properties of the emitted copy -/

theorem makeJobCopy_dep_none (tag : Option Str) (fields : List (Str × Val))
    (pimg : Option Str) :
    getVal (makeJobCopy tag fields pimg) dependentJobsKey = none := by
  have hdb : ¬ dependentJobsKey = baseImageKey := by decide
  cases pimg with
  | none => exact getVal_filter_self fields dependentJobsKey
  | some p =>
    by_cases hp : p = []
    · simp only [makeJobCopy, if_pos hp]
      exact getVal_filter_self fields dependentJobsKey
    · cases tag with
      | none =>
        simp only [makeJobCopy, if_neg hp]
        rw [getVal_setVal_ne _ _ _ _ hdb]
        exact getVal_filter_self fields dependentJobsKey
      | some t =>
        by_cases ht : t = []
        · simp only [makeJobCopy, if_neg hp, if_pos ht]
          rw [getVal_setVal_ne _ _ _ _ hdb]
          exact getVal_filter_self fields dependentJobsKey
        · simp only [makeJobCopy, if_neg hp, if_neg ht]
          rw [getVal_setVal_ne _ _ _ _ hdb]
          exact getVal_filter_self fields dependentJobsKey

theorem makeJobCopy_base (tag : Option Str) (fields : List (Str × Val)) (p : Str)
    (hp : ¬ p = []) :
    getVal (makeJobCopy tag fields (some p)) baseImageKey =
      some (.s (replaceAll ['/'] ['_'] p ++ tagSuffix tag)) := by
  cases tag with
  | none =>
    simp only [makeJobCopy, if_neg hp, tagSuffix, List.append_nil]
    exact getVal_setVal_self _ _ _
  | some t =>
    by_cases ht : t = []
    · simp only [makeJobCopy, if_neg hp, if_pos ht, tagSuffix, List.append_nil]
      exact getVal_setVal_self _ _ _
    · simp only [makeJobCopy, if_neg hp, if_neg ht, tagSuffix]
      exact getVal_setVal_self _ _ _

theorem makeJobCopy_other (tag : Option Str) (fields : List (Str × Val))
    (pimg : Option Str) (k : Str) (h1 : ¬ k = dependentJobsKey) (h2 : ¬ k = baseImageKey) :
    getVal (makeJobCopy tag fields pimg) k = getVal fields k := by
  cases pimg with
  | none => exact getVal_filter_ne fields k dependentJobsKey h1
  | some p =>
    by_cases hp : p = []
    · simp only [makeJobCopy, if_pos hp]
      exact getVal_filter_ne fields k dependentJobsKey h1
    · cases tag with
      | none =>
        simp only [makeJobCopy, if_neg hp]
        rw [getVal_setVal_ne _ _ _ _ h2]
        exact getVal_filter_ne fields k dependentJobsKey h1
      | some t =>
        by_cases ht : t = []
        · simp only [makeJobCopy, if_neg hp, if_pos ht]
          rw [getVal_setVal_ne _ _ _ _ h2]
          exact getVal_filter_ne fields k dependentJobsKey h1
        · simp only [makeJobCopy, if_neg hp, if_neg ht]
          rw [getVal_setVal_ne _ _ _ _ h2]
          exact getVal_filter_ne fields k dependentJobsKey h1

theorem makeJobCopy_base_of_none (tag : Option Str) (fields : List (Str × Val)) :
    getVal (makeJobCopy tag fields none) baseImageKey = getVal fields baseImageKey :=
  getVal_filter_ne fields baseImageKey dependentJobsKey (by decide)

theorem makeJobCopy_sub (tag : Option Str) (fields : List (Str × Val))
    (pimg : Option Str) (k : Str) (w : Val)
    (h : getVal (makeJobCopy tag fields pimg) k = some w) :
    k = baseImageKey ∨ getVal fields k = some w := by
  by_cases hb : k = baseImageKey
  · exact Or.inl hb
  · by_cases hd : k = dependentJobsKey
    · subst hd
      rw [makeJobCopy_dep_none] at h
      cases h
    · exact Or.inr (by rw [← makeJobCopy_other tag fields pimg k hd hb]; exact h)

/-- A level of the spec's entries, computed directly from the traversal
order: the included positions of that depth, in depth-first order. -/
theorem journalLevel_filterMap (F tag : Option Str) (L : List NodeView) (d : Nat) :
    journalLevel (L.filterMap (emitView F tag)) d =
      (L.filter (fun v => selfOrAncestorMatches F v && (v.depth == d))).map
        (fun v => makeJobCopy tag v.node.fields v.parentImage) := by
  induction L with
  | nil => rfl
  | cons v t ih =>
    by_cases hm : selfOrAncestorMatches F v = true
    · have hemit : emitView F tag v =
          some (v.depth, makeJobCopy tag v.node.fields v.parentImage) := by
        simp [emitView, hm]
      simp only [List.filterMap_cons, hemit]
      by_cases hd : (v.depth == d) = true
      · simp only [journalLevel] at ih ⊢
        rw [List.filter_cons_of_pos (by simpa using hd), List.map_cons, ih,
          List.filter_cons_of_pos (by simp [hm, hd]), List.map_cons]
      · simp only [journalLevel] at ih ⊢
        rw [List.filter_cons_of_neg (by simpa using hd), ih,
          List.filter_cons_of_neg (by simp [hd])]
    · have hemit : emitView F tag v = none := by simp [emitView, hm]
      simp only [List.filterMap_cons, hemit]
      rw [ih, List.filter_cons_of_neg (by simp [hm])]

/-- With no filter every position is included, so the deepest included
depth is the deepest depth. -/
theorem includedMaxDepth_none (tag : Option Str) (items : List Job) :
    includedMaxDepth none tag items = forestMaxDepth items := by
  have key : ∀ L : List NodeView,
      maxLevel (L.filterMap (emitView none tag)) =
        L.foldr (fun v m => max v.depth m) 0 := by
    intro L
    induction L with
    | nil => rfl
    | cons v t ih =>
      have hemit : emitView none tag v =
          some (v.depth, makeJobCopy tag v.node.fields v.parentImage) := by
        simp [emitView, selfOrAncestorMatches, matchesFilter]
      simp only [List.filterMap_cons, hemit, maxLevel, List.foldr_cons]
      simp only [maxLevel] at ih
      rw [ih]
  exact key (dfsForest items)

/-! ### Sanity checks: scenarios from the testable properties section -/

def jobB : Job := .mk [(repoKey, .s "b".toList), (imageKey, .s "img-b".toList)] none
def jobA : Job :=
  .mk [(repoKey, .s "a".toList), (imageKey, .s "img-a".toList)] (some [jobB])

example :
    organize_by_levels [jobA] none none =
      [[[(repoKey, .s "a".toList), (imageKey, .s "img-a".toList)]],
       [[(repoKey, .s "b".toList), (imageKey, .s "img-b".toList),
         (baseImageKey, .s "img-a".toList)]]] := by decide

example :
    organize_by_levels [jobA] (some "nightly".toList) none =
      [[[(repoKey, .s "a".toList), (imageKey, .s "img-a".toList)]],
       [[(repoKey, .s "b".toList), (imageKey, .s "img-b".toList),
         (baseImageKey, .s "img-a--nightly".toList)]]] := by decide

example :
    organize_by_levels [jobA] none (some "b".toList) =
      [[], [[(repoKey, .s "b".toList), (imageKey, .s "img-b".toList),
             (baseImageKey, .s "img-a".toList)]]] := by decide

example : replaceAll "/".toList "_".toList "org/name".toList = "org_name".toList := by decide

/-! ### Claim theorems -/

/-- C1: for every acyclic job tree and repo filter, a copy appears in
level `d` of `organize_by_levels` if and only if it is the copy of a job
at depth `d` whose own `repo` equals the filter or one of whose
ancestors' `repo` does; a job is never included merely because a
descendant matches, and each subtree is subject to the same rule
independently. -/
theorem claim1_filter_inclusion (items : List Job) (tag F : Option Str) (d : Nat)
    (c : List (Str × Val)) :
    c ∈ (organize_by_levels items tag F).getD d [] ↔
      ∃ v ∈ dfsForest items, v.depth = d ∧
        (matchesFilter F v.node = true ∨ v.ancestors.any (matchesFilter F) = true) ∧
        c = makeJobCopy tag v.node.fields v.parentImage := by
  rw [mem_level_iff]
  simp only [selfOrAncestorMatches, Bool.or_eq_true]
  constructor
  · rintro ⟨v, hv, hm, hd, hc⟩
    exact ⟨v, hv, hd, hm, hc⟩
  · rintro ⟨v, hv, hd, hm, hc⟩
    exact ⟨v, hv, hm, hd, hc⟩

/-- C3: with no filter the number of levels is `1 +` the maximum nesting
depth; in general (any filter) the number of levels is `1 +` the maximum
depth that received an included job, and every index `0 .. max` holds
precisely that depth's (possibly empty) list. -/
theorem claim3_level_count (items : List Job) (tag : Option Str) :
    ((organize_by_levels items tag none).length = forestMaxDepth items + 1) ∧
    ∀ F : Option Str,
      (organize_by_levels items tag F).length = includedMaxDepth F tag items + 1 ∧
      ∀ d, d ≤ includedMaxDepth F tag items →
        (organize_by_levels items tag F)[d]? =
          some (journalLevel (includedEntries F tag items) d) := by
  refine ⟨?_, fun F => ⟨organize_by_levels_length items tag F, fun d hd => ?_⟩⟩
  · rw [organize_by_levels_length, includedMaxDepth_none]
  · simp only [organize_by_levels]
    rw [List.getElem?_map, List.getElem?_range (by rw [maxLevel_code_spec]; omega)]
    simp only [Option.map_some']
    congr 1
    simp only [journalLevel, forest_bridge F tag items d]

/-- C4: within each level, the copies appear in depth-first,
left-to-right visitation order: level `d` equals the pre-order traversal
of the forest restricted to included jobs of depth `d`, mapped to their
copies. -/
theorem claim4_level_order (items : List Job) (tag F : Option Str) (d : Nat) :
    (organize_by_levels items tag F).getD d [] =
      ((dfsForest items).filter
        (fun v => selfOrAncestorMatches F v && (v.depth == d))).map
        (fun v => makeJobCopy tag v.node.fields v.parentImage) := by
  rw [organize_by_levels_getD, includedEntries, journalLevel_filterMap]

/-- C7: `replace_branch_placeholder` returns a structurally identical
value in which every string value has all occurrences of
`BRANCH_PLACEHOLDER` replaced by the branch name, mapping keys are not
rewritten, sequence order is preserved, and non-string scalars are
unchanged. -/
theorem claim7_substitution_spec (v : ConfigValue) (b : Str) :
    SubstSpecV b v (replace_branch_placeholder v b) :=
  substSpec_holds v b

/-- C10: whenever no job is included (the top-level list is empty, or
the filter matches no job of the tree), `organize_by_levels` returns a
list containing exactly one element, an empty list. -/
theorem claim10_no_match (items : List Job) (tag F : Option Str)
    (h : forestAnyMatch F items = false) :
    organize_by_levels items tag F = [[]] := by
  have hnone : ∀ v ∈ dfsForest items, selfOrAncestorMatches F v = false := by
    intro v hv
    have hself : matchesFilter F v.node = false := by
      have := List.any_eq_false.mp h v hv
      simpa using this
    have hancs : v.ancestors.any (matchesFilter F) = false := by
      rcases dfsJob_anc_list items [] 0 none v hv with ⟨pre, hpre, hmem⟩
      rw [List.any_eq_false]
      intro a ha
      rw [hpre, List.append_nil] at ha
      rcases hmem a ha with ⟨w, hw, hwa⟩
      have := List.any_eq_false.mp h w hw
      rw [hwa] at this
      simpa using this
    simp [selfOrAncestorMatches, hself, hancs]
  have hempty : includedEntries F tag items = [] := by
    rw [includedEntries, List.filterMap_eq_nil_iff]
    intro v hv
    simp [emitView, hnone v hv]
  have hj : processTopLevel F tag items [] = [] := by
    cases hcase : processTopLevel F tag items [] with
    | nil => rfl
    | cons e t =>
      have he : e ∈ processTopLevel F tag items [] := by
        rw [hcase]; exact List.mem_cons_self e t
      have h2 := mem_of_filter_depth_congr _ _ (forest_bridge F tag items) e he
      rw [hempty] at h2
      cases h2
  simp [organize_by_levels, hj, maxLevel, journalLevel, List.range_succ]

/-- Witness for C10 at a concrete input: the filter `"z"` matches no job
of the `a → b` tree, and the output is `[[]]`. -/
theorem claim10_no_match_witness :
    forestAnyMatch (some "z".toList) [jobA] = false ∧
    organize_by_levels [jobA] none (some "z".toList) = [[]] :=
  ⟨by decide, claim10_no_match [jobA] none (some "z".toList) (by decide)⟩

/-- C2: a copy emitted at depth 0 never carries `base_image`, and a copy
of an included job whose parent has a non-empty `image` string carries
`base_image` equal to that image with `/` replaced by `_`, suffixed with
`--<tag>` exactly when a non-empty tag was supplied.  (Per the data
model, input jobs never carry a `base_image` key.) -/
theorem claim2_base_image (items : List Job) (tag F : Option Str)
    (hwf : NoBaseImageKey items = true) :
    (∀ c ∈ (organize_by_levels items tag F).getD 0 [], getVal c baseImageKey = none) ∧
    (∀ v ∈ dfsForest items, selfOrAncestorMatches F v = true →
      ∀ p, v.parentImage = some p → ¬ p = [] →
        makeJobCopy tag v.node.fields v.parentImage ∈
          (organize_by_levels items tag F).getD v.depth [] ∧
        getVal (makeJobCopy tag v.node.fields v.parentImage) baseImageKey =
          some (.s (replaceAll ['/'] ['_'] p ++ tagSuffix tag))) := by
  constructor
  · intro c hc
    rcases (mem_level_iff items tag F 0 c).mp hc with ⟨v, hv, hm, hd, hcopy⟩
    have hroot := dfsJobs_at_depth items [] 0 none v hv hd
    subst hcopy
    rw [hroot.2, makeJobCopy_base_of_none]
    have hall := List.all_eq_true.mp hwf v hv
    exact getVal_all_none _ _ hall
  · intro v hv hm p hp hpne
    refine ⟨(mem_level_iff items tag F v.depth _).mpr ⟨v, hv, hm, rfl, rfl⟩, ?_⟩
    rw [hp, makeJobCopy_base tag v.node.fields p hpne]

/-- Witness for C2 at the `a → b` tree with tag `"nightly"`. -/
theorem claim2_base_image_witness :
    NoBaseImageKey [jobA] = true ∧
    ((∀ c ∈ (organize_by_levels [jobA] (some "nightly".toList) none).getD 0 [],
        getVal c baseImageKey = none) ∧
      (∀ v ∈ dfsForest [jobA], selfOrAncestorMatches none v = true →
        ∀ p, v.parentImage = some p → ¬ p = [] →
          makeJobCopy (some "nightly".toList) v.node.fields v.parentImage ∈
            (organize_by_levels [jobA] (some "nightly".toList) none).getD v.depth [] ∧
          getVal (makeJobCopy (some "nightly".toList) v.node.fields v.parentImage)
              baseImageKey =
            some (.s (replaceAll ['/'] ['_'] p ++ tagSuffix (some "nightly".toList))))) :=
  ⟨by decide, claim2_base_image [jobA] (some "nightly".toList) none (by decide)⟩

/-- C5: no emitted copy carries a `dependent_jobs` key, and every copy
preserves every other key of its source record with its exact value, the
only possible addition being the derived `base_image` field.  (Per the
data model, input jobs never carry a `base_image` key.) -/
theorem claim5_copy_fields (items : List Job) (tag F : Option Str)
    (hwf : NoBaseImageKey items = true) :
    ∀ d c, c ∈ (organize_by_levels items tag F).getD d [] →
      getVal c dependentJobsKey = none ∧
      ∃ v ∈ dfsForest items, c = makeJobCopy tag v.node.fields v.parentImage ∧
        (∀ k w, ¬ k = dependentJobsKey → getVal v.node.fields k = some w →
          getVal c k = some w) ∧
        (∀ k w, getVal c k = some w →
          k = baseImageKey ∨ getVal v.node.fields k = some w) := by
  intro d c hc
  rcases (mem_level_iff items tag F d c).mp hc with ⟨v, hv, hm, hd, hcopy⟩
  subst hcopy
  refine ⟨makeJobCopy_dep_none tag v.node.fields v.parentImage,
    ⟨v, hv, rfl, ?_, ?_⟩⟩
  · intro k w hk hw
    by_cases hb : k = baseImageKey
    · subst hb
      have hall := List.all_eq_true.mp hwf v hv
      rw [getVal_all_none _ _ hall] at hw
      cases hw
    · rw [makeJobCopy_other tag v.node.fields v.parentImage k hk hb]
      exact hw
  · intro k w hw
    exact makeJobCopy_sub tag v.node.fields v.parentImage k w hw

/-- Witness for C5 at the `a → b` tree without tag or filter. -/
theorem claim5_copy_fields_witness :
    NoBaseImageKey [jobA] = true ∧
    (∀ d c, c ∈ (organize_by_levels [jobA] none none).getD d [] →
      getVal c dependentJobsKey = none ∧
      ∃ v ∈ dfsForest [jobA], c = makeJobCopy none v.node.fields v.parentImage ∧
        (∀ k w, ¬ k = dependentJobsKey → getVal v.node.fields k = some w →
          getVal c k = some w) ∧
        (∀ k w, getVal c k = some w →
          k = baseImageKey ∨ getVal v.node.fields k = some w)) :=
  ⟨by decide, claim5_copy_fields [jobA] none none (by decide)⟩

/-- The position of the `b` job in the `a → b` tree. -/
def viewB : NodeView := ⟨[jobA], 1, some "img-a".toList, jobB⟩

/-- C6 counterexample: with filter `"b"` on the `a → b` tree, the
non-root `b` job is included (level 1) while its literal tree parent is
included nowhere — level 0 is empty and no other copy exists — so an
included non-root job's parent is not always included. -/
theorem claim6_counterexample :
    (organize_by_levels [jobA] none (some "b".toList) =
      [[], [[(repoKey, .s "b".toList), (imageKey, .s "img-b".toList),
             (baseImageKey, .s "img-a".toList)]]]) ∧
    viewB ∈ dfsForest [jobA] ∧
    viewB.ancestors = [jobA] ∧
    makeJobCopy none viewB.node.fields viewB.parentImage ∈
      (organize_by_levels [jobA] none (some "b".toList)).getD viewB.depth [] ∧
    ∀ d, makeJobCopy none jobA.fields none ∉
      (organize_by_levels [jobA] none (some "b".toList)).getD d [] := by
  refine ⟨by decide, by decide, by decide, by decide, ?_⟩
  intro d
  match d with
  | 0 => decide
  | 1 => decide
  | (n + 2) =>
    rw [List.getD_eq_getElem?_getD, List.getElem?_eq_none
      (by rw [show (organize_by_levels [jobA] none (some "b".toList)).length = 2
          from by decide]; omega)]
    simp

/-- C6 corrected: an included non-root job's literal parent is itself
included whenever the job's inclusion comes from an ancestor's filter
match; when the job is included only through its own match the parent
may be absent. -/
theorem claim6_parent_included (items : List Job) (tag F : Option Str)
    (v : NodeView) (p : Job) (rest : List Job)
    (hv : v ∈ dfsForest items) (ha : v.ancestors = p :: rest)
    (hAnc : (p :: rest).any (matchesFilter F) = true) :
    ∃ w ∈ dfsForest items, w.node = p ∧ w.ancestors = rest ∧ w.depth + 1 = v.depth ∧
      makeJobCopy tag w.node.fields w.parentImage ∈
        (organize_by_levels items tag F).getD w.depth [] := by
  rcases dfsJobs_parent items [] 0 none v hv with ⟨ha0, -, -⟩ | ⟨w, hw, hwa, hwd, -⟩
  · rw [ha] at ha0
    cases ha0
  · have heq : w.node :: w.ancestors = p :: rest := by rw [← hwa, ha]
    have hn : w.node = p := (List.cons.inj heq).1
    have hr : w.ancestors = rest := (List.cons.inj heq).2
    have hm : selfOrAncestorMatches F w = true := by
      simp only [selfOrAncestorMatches, hn, hr]
      simpa [List.any_cons] using hAnc
    exact ⟨w, hw, hn, hr, hwd.symm,
      (mem_level_iff items tag F w.depth _).mpr ⟨w, hw, hm, rfl, rfl⟩⟩

/-- Witness for the corrected C6: with filter `"a"`, the included `b`
job's parent `a` is included at level 0. -/
theorem claim6_parent_included_witness :
    ∃ w ∈ dfsForest [jobA], w.node = jobA ∧ w.ancestors = [] ∧
      w.depth + 1 = viewB.depth ∧
      makeJobCopy none w.node.fields w.parentImage ∈
        (organize_by_levels [jobA] none (some "a".toList)).getD w.depth [] :=
  claim6_parent_included [jobA] none (some "a".toList) viewB jobA []
    (by decide) (by decide) (by decide)

/-- C9: a job included by its own `repo` match, whose literal parent is
excluded, still receives a `base_image` derived from that excluded
parent's `image` (slashes replaced, tag suffix as usual); the parent's
position exists in the tree but satisfies the inclusion rule of no job
in the output. -/
theorem claim9_excluded_parent_base (items : List Job) (tag F : Option Str)
    (v : NodeView) (p : Job) (rest : List Job)
    (hv : v ∈ dfsForest items) (ha : v.ancestors = p :: rest)
    (hself : matchesFilter F v.node = true)
    (hanc : (p :: rest).any (matchesFilter F) = false) :
    ∀ s, v.parentImage = some s → ¬ s = [] →
      makeJobCopy tag v.node.fields v.parentImage ∈
        (organize_by_levels items tag F).getD v.depth [] ∧
      getVal (makeJobCopy tag v.node.fields v.parentImage) baseImageKey =
        some (.s (replaceAll ['/'] ['_'] s ++ tagSuffix tag)) ∧
      ∃ w ∈ dfsForest items, w.node = p ∧ w.ancestors = rest ∧
        selfOrAncestorMatches F w = false ∧
        v.parentImage = getStr w.node.fields imageKey := by
  intro s hs hsne
  have hm : selfOrAncestorMatches F v = true := by
    simp [selfOrAncestorMatches, hself]
  refine ⟨(mem_level_iff items tag F v.depth _).mpr ⟨v, hv, hm, rfl, rfl⟩, ?_, ?_⟩
  · rw [hs, makeJobCopy_base tag v.node.fields s hsne]
  · rcases dfsJobs_parent items [] 0 none v hv with ⟨ha0, -, -⟩ | ⟨w, hw, hwa, -, hwp⟩
    · rw [ha] at ha0
      cases ha0
    · have heq : w.node :: w.ancestors = p :: rest := by rw [← hwa, ha]
      have hn : w.node = p := (List.cons.inj heq).1
      have hr : w.ancestors = rest := (List.cons.inj heq).2
      have hwm : selfOrAncestorMatches F w = false := by
        simp only [selfOrAncestorMatches, hn, hr]
        simpa [List.any_cons] using hanc
      exact ⟨w, hw, hn, hr, hwm, hwp⟩

/-- Witness for C9: filter `"b"` on the `a → b` tree; the included `b`
copy carries `base_image` `"img-a"` although the `a` job is excluded. -/
theorem claim9_excluded_parent_base_witness :
    makeJobCopy none viewB.node.fields viewB.parentImage ∈
      (organize_by_levels [jobA] none (some "b".toList)).getD viewB.depth [] ∧
    getVal (makeJobCopy none viewB.node.fields viewB.parentImage) baseImageKey =
      some (.s (replaceAll ['/'] ['_'] "img-a".toList ++ tagSuffix none)) ∧
    ∃ w ∈ dfsForest [jobA], w.node = jobA ∧ w.ancestors = [] ∧
      selfOrAncestorMatches (some "b".toList) w = false ∧
      viewB.parentImage = getStr w.node.fields imageKey :=
  claim9_excluded_parent_base [jobA] none (some "b".toList) viewB jobA []
    (by decide) (by decide) (by decide) (by decide) "img-a".toList (by decide) (by decide)

/-- A value on which one substitution pass with branch `"_"` splices the
pieces `"BRANCH"` and `"PLACEHOLDER"` into a fresh occurrence of the
token. -/
def cvC8 : ConfigValue := .str "BRANCHBRANCH_PLACEHOLDERPLACEHOLDER".toList

/-- A value whose single substitution leaves no token behind. -/
def cv8w : ConfigValue :=
  .mapping [("x".toList, .str "go to BRANCH_PLACEHOLDER now".toList)]

/-- C8 counterexample: the branch name `"_"` contains no occurrence of
the token, yet substitution is not idempotent on `cvC8`: one pass
creates a new occurrence of the token spanning a replacement boundary,
and the second pass removes it. -/
theorem claim8_counterexample :
    occursIn BRANCH_PLACEHOLDER "_".toList = false ∧
    replace_branch_placeholder (replace_branch_placeholder cvC8 "_".toList) "_".toList ≠
      replace_branch_placeholder cvC8 "_".toList := by
  refine ⟨by decide, fun h => ?_⟩
  have h1 : ConfigValue.str "_".toList = ConfigValue.str BRANCH_PLACEHOLDER := h
  exact absurd (ConfigValue.str.inj h1) (by decide)

/-- C8 corrected: substitution is idempotent whenever one application
leaves no occurrence of the token anywhere in the result (which a
token-free branch name alone does not guarantee, since a replacement can
splice a new occurrence out of surrounding text). -/
theorem claim8_idempotent (v : ConfigValue) (b : Str)
    (h : cvNoToken (replace_branch_placeholder v b) = true) :
    replace_branch_placeholder (replace_branch_placeholder v b) b =
      replace_branch_placeholder v b :=
  replace_of_noToken (replace_branch_placeholder v b) h b

/-- Witness for the corrected C8: the §8 scenario value with branch
`"main"`. -/
theorem claim8_idempotent_witness :
    cvNoToken (replace_branch_placeholder cv8w "main".toList) = true ∧
    replace_branch_placeholder (replace_branch_placeholder cv8w "main".toList)
        "main".toList =
      replace_branch_placeholder cv8w "main".toList :=
  ⟨by decide, claim8_idempotent cv8w "main".toList (by decide)⟩
